import Mathlib

/-!
Verification of the bisection root finder implemented in
`chapter_2_root_finding/beam_deflection/beam_deflection.ipynb`.

The Python source works on floating-point numbers; here the arithmetic is
embedded over an arbitrary linear ordered field `K` (instantiated at `ℝ` in
the claim theorems), which is the idealised real arithmetic the spec
describes.  The `print` calls in the source are pure side effects on the
console and are not modelled; everything else (the sign function, the single
bisection step, the iteration loop with its relative-error stopping rule and
iteration cap) is translated line by line.
-/

namespace BeamDeflection

variable {K : Type} [LinearOrderedField K]

/-- Sign function from the source:
`def sgn(x): if x > 0: return 1 elif x < 0: return -1 else: return 0`. -/
def sgn (x : K) : ℤ :=
  if x > 0 then 1
  else if x < 0 then -1
  else 0

/-- One bisection step from the source:
```
def bisect(f,a,b,L,w,E,I,delta):
    fa = f(a,L,w,E,I,delta)
    fb = f(b,L,w,E,I,delta)
    p = (a+b)/2.0
    fp = f(p,L,w,E,I,delta)
    if sgn(fa) == sgn(fp):
        return p, b
    else:
        return a, p
```
The evaluation `fb` is kept even though the source never uses it. -/
def bisect (f : K → K → K → K → K → K → K) (a b L w E I delta : K) : K × K :=
  let fa := f a L w E I delta
  let fb := f b L w E I delta
  let p := (a + b) / 2
  let fp := f p L w E I delta
  if sgn fa = sgn fp then (p, b) else (a, p)

/-- The `while True` loop body of `bisection_iterations`, with the loop state
(current interval `(a, b)`, previous midpoint `xr_old`, iteration counter `n`)
passed explicitly.  One call performs `n = n + 1`, the cap check
`if(n > Nmax): break`, the `bisect` update, the relative-error computation
`eps_r = abs((xr_new-xr_old)/xr_new)*100` and the convergence check
`if(eps_r < eps): break`, returning `((a+b)/2.0), n` on either break. -/
def bisection_loop (f : K → K → K → K → K → K → K) (L w E I delta a b eps : K)
    (Nmax : ℕ) (xr_old : K) (n : ℕ) : K × ℕ :=
  if h : n + 1 > Nmax then ((a + b) / 2, n + 1)
  else
    let ab := bisect f a b L w E I delta
    let xr_new := (ab.1 + ab.2) / 2
    if |(xr_new - xr_old) / xr_new| * 100 < eps then (xr_new, n + 1)
    else bisection_loop f L w E I delta ab.1 ab.2 eps Nmax xr_new (n + 1)
termination_by Nmax + 1 - n
decreasing_by omega

/-- The source's `bisection_iterations(f,L,w,E,I,delta,a,b,eps,Nmax)`:
initialises `n = 0`, `xr_old = (a+b)/2.0` and runs the loop. -/
def bisection_iterations (f : K → K → K → K → K → K → K)
    (L w E I delta a b eps : K) (Nmax : ℕ) : K × ℕ :=
  bisection_loop f L w E I delta a b eps Nmax ((a + b) / 2) 0

/-- The beam-deflection residual from the source:
`def f(x,L,w,E,I,delta): return delta+w*x/24/E/I*(L**3-2*L*x**2+x**3)`. -/
def fbeam (x L w E I delta : K) : K :=
  delta + w * x / 24 / E / I * (L ^ 3 - 2 * L * x ^ 2 + x ^ 3)

/-- Midpoint of an interval presented as a pair, `(a+b)/2.0` in the source. -/
def midpt (p : K × K) : K := (p.1 + p.2) / 2

/-- Iterated application of the `bisect` step to an interval: the working
interval after `k` conditional bisections of the loop. -/
def bisect_iter (f : K → K → K → K → K → K → K) (L w E I delta : K) :
    ℕ → K × K → K × K
  | 0, p => p
  | k + 1, p => bisect_iter f L w E I delta k (bisect f p.1 p.2 L w E I delta)

/-- Fallible model of the loop: in Python, the statement
`eps_r = abs((xr_new-xr_old)/xr_new)*100` raises `ZeroDivisionError` when
`xr_new == 0`, so that iteration is modelled as `none`; every other path
returns `some` of the usual result. -/
def bisection_loopE (f : K → K → K → K → K → K → K) (L w E I delta a b eps : K)
    (Nmax : ℕ) (xr_old : K) (n : ℕ) : Option (K × ℕ) :=
  if h : n + 1 > Nmax then some ((a + b) / 2, n + 1)
  else
    let ab := bisect f a b L w E I delta
    let xr_new := (ab.1 + ab.2) / 2
    if xr_new = 0 then none
    else if |(xr_new - xr_old) / xr_new| * 100 < eps then some (xr_new, n + 1)
    else bisection_loopE f L w E I delta ab.1 ab.2 eps Nmax xr_new (n + 1)
termination_by Nmax + 1 - n
decreasing_by omega

/-- Fallible model of `bisection_iterations`, propagating the possible
`ZeroDivisionError` of the relative-error computation. -/
def bisection_iterationsE (f : K → K → K → K → K → K → K)
    (L w E I delta a b eps : K) (Nmax : ℕ) : Option (K × ℕ) :=
  bisection_loopE f L w E I delta a b eps Nmax ((a + b) / 2) 0

/-- The run of the loop from the given state never computes a zero new
midpoint `xr_new` before stopping: the hypothesis under which the source's
division is always well defined. -/
def midZeroFree (f : K → K → K → K → K → K → K) (L w E I delta a b eps : K)
    (Nmax : ℕ) (xr_old : K) (n : ℕ) : Prop :=
  if h : n + 1 > Nmax then True
  else
    midpt (bisect f a b L w E I delta) ≠ 0 ∧
      (¬ (|(midpt (bisect f a b L w E I delta) - xr_old) /
          midpt (bisect f a b L w E I delta)| * 100 < eps) →
        midZeroFree f L w E I delta (bisect f a b L w E I delta).1
          (bisect f a b L w E I delta).2 eps Nmax
          (midpt (bisect f a b L w E I delta)) (n + 1))
termination_by Nmax + 1 - n
decreasing_by omega

section Helpers

variable (f g : K → K → K → K → K → K → K) (L w E I delta a b eps xr_old : K)
variable (Nmax n : ℕ)

/-- Unfolding `bisect` to its branch structure. -/
theorem bisect_eq :
    bisect f a b L w E I delta =
      if sgn (f a L w E I delta) = sgn (f ((a + b) / 2) L w E I delta)
      then ((a + b) / 2, b) else (a, (a + b) / 2) := rfl

/-- The loop on the cap path: the counter is incremented past `Nmax`, the body
breaks before bisecting and the current midpoint is returned. -/
theorem bisection_loop_cap (h : Nmax < n + 1) :
    bisection_loop f L w E I delta a b eps Nmax xr_old n = ((a + b) / 2, n + 1) := by
  rw [bisection_loop]
  exact dif_pos h

/-- The loop on a converged step: the cap is not hit, the interval is bisected
and the new relative error passes the test, so the new midpoint is returned. -/
theorem bisection_loop_conv (h : n + 1 ≤ Nmax)
    (h2 : |(midpt (bisect f a b L w E I delta) - xr_old) /
        midpt (bisect f a b L w E I delta)| * 100 < eps) :
    bisection_loop f L w E I delta a b eps Nmax xr_old n =
      (midpt (bisect f a b L w E I delta), n + 1) := by
  rw [bisection_loop, dif_neg (by omega)]
  exact if_pos h2

/-- The loop on a non-converged step: the cap is not hit, the interval is
bisected, the relative error fails the test and the loop continues from the
halved interval with the new midpoint as `xr_old`. -/
theorem bisection_loop_next (h : n + 1 ≤ Nmax)
    (h2 : ¬ (|(midpt (bisect f a b L w E I delta) - xr_old) /
        midpt (bisect f a b L w E I delta)| * 100 < eps)) :
    bisection_loop f L w E I delta a b eps Nmax xr_old n =
      bisection_loop f L w E I delta (bisect f a b L w E I delta).1
        (bisect f a b L w E I delta).2 eps Nmax
        (midpt (bisect f a b L w E I delta)) (n + 1) := by
  rw [bisection_loop, dif_neg (by omega)]
  exact if_neg h2

end Helpers

section SgnFacts

/-- Value of `sgn` on positive inputs. -/
theorem sgn_of_pos {x : K} (h : 0 < x) : sgn x = 1 := if_pos h

/-- Value of `sgn` on negative inputs. -/
theorem sgn_of_neg {x : K} (h : x < 0) : sgn x = -1 := by
  rw [sgn, if_neg (by linarith), if_pos h]

/-- Value of `sgn` at zero. -/
theorem sgn_of_zero {x : K} (h : x = 0) : sgn x = 0 := by
  rw [sgn, if_neg (by simp [h]), if_neg (by simp [h])]

end SgnFacts

section Nesting

variable (f : K → K → K → K → K → K → K) (L w E I delta eps : K) (Nmax : ℕ)

/-- One `bisect` step returns a sub-interval of its input interval. -/
theorem bisect_nest {a b : K} (hab : a ≤ b) :
    a ≤ (bisect f a b L w E I delta).1 ∧
    (bisect f a b L w E I delta).1 ≤ (bisect f a b L w E I delta).2 ∧
    (bisect f a b L w E I delta).2 ≤ b := by
  rw [bisect_eq]
  split_ifs <;> refine ⟨?_, ?_, ?_⟩ <;> simp <;> linarith

/-- The first component of the loop result stays inside the current working
interval, for any state of the loop. -/
theorem bisection_loop_mem : ∀ d n (a b xr_old : K), Nmax - n ≤ d → a ≤ b →
    a ≤ (bisection_loop f L w E I delta a b eps Nmax xr_old n).1 ∧
    (bisection_loop f L w E I delta a b eps Nmax xr_old n).1 ≤ b := by
  intro d
  induction d with
  | zero =>
    intro n a b xr_old hd hab
    rw [bisection_loop_cap f L w E I delta a b eps xr_old Nmax n (by omega)]
    constructor <;> simp <;> linarith
  | succ d ih =>
    intro n a b xr_old hd hab
    by_cases hcap : Nmax < n + 1
    · rw [bisection_loop_cap f L w E I delta a b eps xr_old Nmax n hcap]
      constructor <;> simp <;> linarith
    · have h1 : n + 1 ≤ Nmax := by omega
      obtain ⟨hn1, hn2, hn3⟩ := bisect_nest f L w E I delta (a := a) (b := b) hab
      by_cases hc : |(midpt (bisect f a b L w E I delta) - xr_old) /
          midpt (bisect f a b L w E I delta)| * 100 < eps
      · rw [bisection_loop_conv f L w E I delta a b eps xr_old Nmax n h1 hc]
        simp only [midpt]
        constructor <;> linarith
      · rw [bisection_loop_next f L w E I delta a b eps xr_old Nmax n h1 hc]
        have := ih (n + 1) (bisect f a b L w E I delta).1
          (bisect f a b L w E I delta).2 (midpt (bisect f a b L w E I delta))
          (by omega) hn2
        constructor <;> linarith [this.1, this.2]

end Nesting

section IterFacts

variable (f : K → K → K → K → K → K → K) (L w E I delta eps : K) (Nmax : ℕ)

/-- Zero conditional bisections leave the interval unchanged. -/
theorem bisect_iter_zero (a b : K) :
    bisect_iter f L w E I delta 0 (a, b) = (a, b) := rfl

/-- Unfolding one conditional bisection at the head of the iteration. -/
theorem bisect_iter_succ (k : ℕ) (a b : K) :
    bisect_iter f L w E I delta (k + 1) (a, b) =
      bisect_iter f L w E I delta k (bisect f a b L w E I delta) := rfl

/-- Shape of any loop result: the first component is the midpoint of the
interval reached after some number `k` of bisections, and the returned counter
is `n + k` when the loop stopped by convergence, or `Nmax + 1` (with
`n + k = Nmax` bisections performed) when it stopped at the cap. -/
theorem bisection_loop_shape : ∀ d n (a b xr_old : K), Nmax - n ≤ d → n ≤ Nmax →
    ∃ k m, n + k ≤ Nmax ∧
      bisection_loop f L w E I delta a b eps Nmax xr_old n =
        (midpt (bisect_iter f L w E I delta k (a, b)), m) ∧
      (m = n + k ∨ (m = Nmax + 1 ∧ n + k = Nmax)) := by
  intro d
  induction d with
  | zero =>
    intro n a b xr_old hd hn
    have hnN : n = Nmax := by omega
    refine ⟨0, n + 1, by omega, ?_, Or.inr ⟨by omega, by omega⟩⟩
    rw [bisection_loop_cap f L w E I delta a b eps xr_old Nmax n (by omega)]
    rfl
  | succ d ih =>
    intro n a b xr_old hd hn
    by_cases hcap : Nmax < n + 1
    · refine ⟨0, n + 1, by omega, ?_, Or.inr ⟨by omega, by omega⟩⟩
      rw [bisection_loop_cap f L w E I delta a b eps xr_old Nmax n hcap]
      rfl
    · have h1 : n + 1 ≤ Nmax := by omega
      by_cases hc : |(midpt (bisect f a b L w E I delta) - xr_old) /
          midpt (bisect f a b L w E I delta)| * 100 < eps
      · refine ⟨1, n + 1, by omega, ?_, Or.inl (by omega)⟩
        rw [bisection_loop_conv f L w E I delta a b eps xr_old Nmax n h1 hc]
        rfl
      · rw [bisection_loop_next f L w E I delta a b eps xr_old Nmax n h1 hc]
        obtain ⟨k, m, hk, heq, hm⟩ := ih (n + 1) (bisect f a b L w E I delta).1
          (bisect f a b L w E I delta).2 (midpt (bisect f a b L w E I delta))
          (by omega) h1
        refine ⟨k + 1, m, by omega, ?_, by omega⟩
        rw [heq, bisect_iter_succ]

end IterFacts

section NoConv

variable (f : K → K → K → K → K → K → K) (L w E I delta eps : K) (Nmax : ℕ)

/-- When the relative-error test fails on every one of the next `d` steps,
the loop runs to the cap: it performs exactly `d = Nmax - n` bisections,
then breaks with counter `Nmax + 1` and the midpoint of the last interval. -/
theorem bisection_loop_noconv : ∀ d n (a b : K), n ≤ Nmax → Nmax - n = d →
    (∀ j, j < d →
      ¬ (|(midpt (bisect_iter f L w E I delta (j + 1) (a, b)) -
            midpt (bisect_iter f L w E I delta j (a, b))) /
          midpt (bisect_iter f L w E I delta (j + 1) (a, b))| * 100 < eps)) →
    bisection_loop f L w E I delta a b eps Nmax (midpt (a, b)) n =
      (midpt (bisect_iter f L w E I delta d (a, b)), Nmax + 1) := by
  intro d
  induction d with
  | zero =>
    intro n a b hn hd _
    rw [bisection_loop_cap f L w E I delta a b eps (midpt (a, b)) Nmax n (by omega)]
    have hnN : n = Nmax := by omega
    rw [hnN, bisect_iter_zero]
    rfl
  | succ d ih =>
    intro n a b hn hd hnc
    have h1 : n + 1 ≤ Nmax := by omega
    have h0 := hnc 0 (Nat.succ_pos d)
    rw [bisect_iter_succ, bisect_iter_zero, bisect_iter_zero] at h0
    rw [bisection_loop_next f L w E I delta a b eps (midpt (a, b)) Nmax n h1 h0]
    have hrec := ih (n + 1) (bisect f a b L w E I delta).1
      (bisect f a b L w E I delta).2 h1 (by omega) ?_
    · rw [show ((bisect f a b L w E I delta).1, (bisect f a b L w E I delta).2) =
          bisect f a b L w E I delta from rfl] at hrec
      rw [hrec, bisect_iter_succ]
    · intro j hj
      have := hnc (j + 1) (by omega)
      rw [bisect_iter_succ f L w E I delta (j + 1), bisect_iter_succ f L w E I delta j] at this
      simpa using this

end NoConv

section LoopE

variable (f : K → K → K → K → K → K → K) (L w E I delta eps : K) (Nmax : ℕ)

/-- Under the `midZeroFree` hypothesis, the fallible loop never raises and
agrees with the total loop. -/
theorem bisection_loopE_eq : ∀ d n (a b xr_old : K), Nmax - n ≤ d →
    midZeroFree f L w E I delta a b eps Nmax xr_old n →
    bisection_loopE f L w E I delta a b eps Nmax xr_old n =
      some (bisection_loop f L w E I delta a b eps Nmax xr_old n) := by
  intro d
  induction d with
  | zero =>
    intro n a b xr_old hd _
    rw [bisection_loopE, bisection_loop, dif_pos (by omega : n + 1 > Nmax),
      dif_pos (by omega : n + 1 > Nmax)]
  | succ d ih =>
    intro n a b xr_old hd hm
    by_cases hcap : n + 1 > Nmax
    · rw [bisection_loopE, bisection_loop, dif_pos hcap, dif_pos hcap]
    · have h1 : n + 1 ≤ Nmax := by omega
      rw [midZeroFree, dif_neg hcap] at hm
      obtain ⟨hz, hrec⟩ := hm
      by_cases hc : |(midpt (bisect f a b L w E I delta) - xr_old) /
          midpt (bisect f a b L w E I delta)| * 100 < eps
      · rw [bisection_loop_conv f L w E I delta a b eps xr_old Nmax n h1 hc,
          bisection_loopE, dif_neg hcap]
        show (if midpt (bisect f a b L w E I delta) = 0 then none
          else if |(midpt (bisect f a b L w E I delta) - xr_old) /
              midpt (bisect f a b L w E I delta)| * 100 < eps
          then some (midpt (bisect f a b L w E I delta), n + 1)
          else bisection_loopE f L w E I delta (bisect f a b L w E I delta).1
            (bisect f a b L w E I delta).2 eps Nmax
            (midpt (bisect f a b L w E I delta)) (n + 1)) =
          some (midpt (bisect f a b L w E I delta), n + 1)
        rw [if_neg hz, if_pos hc]
      · rw [bisection_loop_next f L w E I delta a b eps xr_old Nmax n h1 hc,
          bisection_loopE, dif_neg hcap]
        show (if midpt (bisect f a b L w E I delta) = 0 then none
          else if |(midpt (bisect f a b L w E I delta) - xr_old) /
              midpt (bisect f a b L w E I delta)| * 100 < eps
          then some (midpt (bisect f a b L w E I delta), n + 1)
          else bisection_loopE f L w E I delta (bisect f a b L w E I delta).1
            (bisect f a b L w E I delta).2 eps Nmax
            (midpt (bisect f a b L w E I delta)) (n + 1)) = _
        rw [if_neg hz, if_neg hc]
        exact ih (n + 1) (bisect f a b L w E I delta).1
          (bisect f a b L w E I delta).2 (midpt (bisect f a b L w E I delta))
          (by omega) (hrec hc)

end LoopE

section TestFunctions

/-- Test function returning its first argument, ignoring the physical
parameters. -/
def tfx : ℝ → ℝ → ℝ → ℝ → ℝ → ℝ → ℝ := fun x _ _ _ _ _ => x

/-- Test function with an exact root at `1`. -/
def tfs : ℝ → ℝ → ℝ → ℝ → ℝ → ℝ → ℝ := fun x _ _ _ _ _ => x - 1

/-- Test function vanishing at `0` and `1` but not at `2`. -/
def tfq : ℝ → ℝ → ℝ → ℝ → ℝ → ℝ → ℝ := fun x _ _ _ _ _ => x * (x - 1)

/-- Test function that is identically zero. -/
def tfz : ℝ → ℝ → ℝ → ℝ → ℝ → ℝ → ℝ := fun _ _ _ _ _ _ => 0

/-- Evaluation of one bisection step of `tfx` on `(0, 2)`. -/
theorem tfx_bisect_02 : bisect tfx 0 2 0 0 0 0 0 = (0, 1) := by
  have h1 : sgn (tfx (0 : ℝ) 0 0 0 0 0) = 0 := sgn_of_zero (by norm_num [tfx])
  have h2 : sgn (tfx (((0 : ℝ) + 2) / 2) 0 0 0 0 0) = 1 :=
    sgn_of_pos (by norm_num [tfx])
  rw [bisect_eq, if_neg (by rw [h1, h2]; decide)]
  norm_num

/-- Evaluation of one bisection step of `tfx` on `(0, 1)`. -/
theorem tfx_bisect_01 : bisect tfx 0 1 0 0 0 0 0 = (0, 1 / 2) := by
  have h1 : sgn (tfx (0 : ℝ) 0 0 0 0 0) = 0 := sgn_of_zero (by norm_num [tfx])
  have h2 : sgn (tfx (((0 : ℝ) + 1) / 2) 0 0 0 0 0) = 1 :=
    sgn_of_pos (by norm_num [tfx])
  rw [bisect_eq, if_neg (by rw [h1, h2]; decide)]
  norm_num

/-- One conditional bisection of `tfx` starting from `(0, 2)`. -/
theorem tfx_iter_1 : bisect_iter tfx 0 0 0 0 0 1 (0, 2) = (0, 1) := by
  rw [bisect_iter_succ, tfx_bisect_02, bisect_iter_zero]

end TestFunctions

/-- C1: one call of `bisect` on a working interval `(a, b)` computes the
midpoint `m = (a+b)/2` and, if `sign(f(a))` equals `sign(f(m))`, replaces the
working interval with `(m, b)`; otherwise it replaces it with `(a, m)` — for
any real `a`, `b` and any function `f`. -/
theorem claim_C1_bisect_step (f : ℝ → ℝ → ℝ → ℝ → ℝ → ℝ → ℝ)
    (a b L w E I delta : ℝ) :
    (sgn (f a L w E I delta) = sgn (f ((a + b) / 2) L w E I delta) →
      bisect f a b L w E I delta = ((a + b) / 2, b)) ∧
    (sgn (f a L w E I delta) ≠ sgn (f ((a + b) / 2) L w E I delta) →
      bisect f a b L w E I delta = (a, (a + b) / 2)) := by
  rw [bisect_eq]
  exact ⟨fun h => if_pos h, fun h => if_neg h⟩

/-- Witness for C1 at `f = tfx`, `a = 1`, `b = 3`: equal signs, upper half
kept. -/
theorem claim_C1_bisect_step_witness :
    sgn (tfx (1 : ℝ) 0 0 0 0 0) = sgn (tfx (((1 : ℝ) + 3) / 2) 0 0 0 0 0) ∧
    bisect tfx 1 3 0 0 0 0 0 = (((1 : ℝ) + 3) / 2, 3) := by
  have h : sgn (tfx (1 : ℝ) 0 0 0 0 0) = sgn (tfx (((1 : ℝ) + 3) / 2) 0 0 0 0 0) := by
    rw [sgn_of_pos (show (0 : ℝ) < tfx 1 0 0 0 0 0 by norm_num [tfx]),
      sgn_of_pos (show (0 : ℝ) < tfx (((1 : ℝ) + 3) / 2) 0 0 0 0 0 by norm_num [tfx])]
  exact ⟨h, (claim_C1_bisect_step tfx 1 3 0 0 0 0 0).1 h⟩

/-- C5: for a working interval with `a < b`, the interval returned by one
`bisect` step has exactly half the width of the previous one, in both
branches of the sign comparison. -/
theorem claim_C5_halving (f : ℝ → ℝ → ℝ → ℝ → ℝ → ℝ → ℝ)
    (a b L w E I delta : ℝ) (h : a < b) :
    (bisect f a b L w E I delta).2 - (bisect f a b L w E I delta).1 =
      (b - a) / 2 := by
  rw [bisect_eq]
  split_ifs <;> simp <;> ring

/-- Witness for C5 at `f = tfx`, `a = 0`, `b = 2`. -/
theorem claim_C5_halving_witness :
    ((0 : ℝ) < 2) ∧
    (bisect tfx 0 2 0 0 0 0 0).2 - (bisect tfx 0 2 0 0 0 0 0).1 =
      ((2 : ℝ) - 0) / 2 :=
  ⟨by norm_num, claim_C5_halving tfx 0 2 0 0 0 0 0 (by norm_num)⟩

/-- C6: when `f` is exactly zero at the midpoint `m = (a+b)/2` while `f(a)` is
nonzero, `sgn(f(m)) = 0` differs from `sgn(f(a))`, so the `else` branch is
taken and the lower half-interval `(a, m)` is returned; no special detection
of an exact root happens. -/
theorem claim_C6_exact_zero (f : ℝ → ℝ → ℝ → ℝ → ℝ → ℝ → ℝ)
    (a b L w E I delta : ℝ)
    (h0 : f ((a + b) / 2) L w E I delta = 0) (h1 : f a L w E I delta ≠ 0) :
    sgn (f ((a + b) / 2) L w E I delta) = 0 ∧
    sgn (f a L w E I delta) ≠ sgn (f ((a + b) / 2) L w E I delta) ∧
    bisect f a b L w E I delta = (a, (a + b) / 2) := by
  have hz := sgn_of_zero h0
  have hne : sgn (f a L w E I delta) ≠ 0 := by
    rcases lt_trichotomy (f a L w E I delta) 0 with hlt | heq | hgt
    · rw [sgn_of_neg hlt]; decide
    · exact absurd heq h1
    · rw [sgn_of_pos hgt]; decide
  refine ⟨hz, by rw [hz]; exact hne, ?_⟩
  rw [bisect_eq, if_neg (by rw [hz]; exact hne)]

/-- Witness for C6 at `f = tfs` (root at `1`), `a = 0`, `b = 2`. -/
theorem claim_C6_exact_zero_witness :
    tfs (((0 : ℝ) + 2) / 2) 0 0 0 0 0 = 0 ∧ tfs (0 : ℝ) 0 0 0 0 0 ≠ 0 ∧
    (sgn (tfs (((0 : ℝ) + 2) / 2) 0 0 0 0 0) = 0 ∧
     sgn (tfs (0 : ℝ) 0 0 0 0 0) ≠ sgn (tfs (((0 : ℝ) + 2) / 2) 0 0 0 0 0) ∧
     bisect tfs 0 2 0 0 0 0 0 = (0, ((0 : ℝ) + 2) / 2)) :=
  ⟨by norm_num [tfs], by norm_num [tfs],
    claim_C6_exact_zero tfs 0 2 0 0 0 0 0 (by norm_num [tfs]) (by norm_num [tfs])⟩

/-- C10: the interval returned by one `bisect` step does not depend on the
value of `f` at the right endpoint `b`: two functions agreeing at `a` and at
the midpoint produce the same interval, whatever their values at `b`. -/
theorem claim_C10_fb_unused (f g : ℝ → ℝ → ℝ → ℝ → ℝ → ℝ → ℝ)
    (a b L w E I delta : ℝ)
    (h1 : f a L w E I delta = g a L w E I delta)
    (h2 : f ((a + b) / 2) L w E I delta = g ((a + b) / 2) L w E I delta) :
    bisect f a b L w E I delta = bisect g a b L w E I delta := by
  rw [bisect_eq, bisect_eq, h1, h2]

/-- Witness for C10 at `f = tfq`, `g = tfz` on `(0, 2)`: they agree at `0` and
at the midpoint `1` but differ at the right endpoint `2`, and the returned
intervals coincide. -/
theorem claim_C10_fb_unused_witness :
    tfq (0 : ℝ) 0 0 0 0 0 = tfz (0 : ℝ) 0 0 0 0 0 ∧
    tfq (((0 : ℝ) + 2) / 2) 0 0 0 0 0 = tfz (((0 : ℝ) + 2) / 2) 0 0 0 0 0 ∧
    tfq (2 : ℝ) 0 0 0 0 0 ≠ tfz (2 : ℝ) 0 0 0 0 0 ∧
    bisect tfq 0 2 0 0 0 0 0 = bisect tfz 0 2 0 0 0 0 0 :=
  ⟨by norm_num [tfq, tfz], by norm_num [tfq, tfz], by norm_num [tfq, tfz],
    claim_C10_fb_unused tfq tfz 0 2 0 0 0 0 0 (by norm_num [tfq, tfz])
      (by norm_num [tfq, tfz])⟩

/-- C2: in every loop iteration whose counter has not passed the cap, the
interval is bisected, the new midpoint is computed, and the loop stops
(returning, with no further bisection) exactly when
`|new_midpoint - old_midpoint| / |new_midpoint| * 100 < eps`; otherwise it
continues from the halved interval with the new midpoint as the previous
estimate. -/
theorem claim_C2_stopping_rule (f : ℝ → ℝ → ℝ → ℝ → ℝ → ℝ → ℝ)
    (L w E I delta a b eps : ℝ) (Nmax : ℕ) (xr_old : ℝ) (n : ℕ)
    (h : n + 1 ≤ Nmax) :
    bisection_loop f L w E I delta a b eps Nmax xr_old n =
      if |midpt (bisect f a b L w E I delta) - xr_old| /
          |midpt (bisect f a b L w E I delta)| * 100 < eps
      then (midpt (bisect f a b L w E I delta), n + 1)
      else bisection_loop f L w E I delta (bisect f a b L w E I delta).1
        (bisect f a b L w E I delta).2 eps Nmax
        (midpt (bisect f a b L w E I delta)) (n + 1) := by
  have habs := abs_div (midpt (bisect f a b L w E I delta) - xr_old)
    (midpt (bisect f a b L w E I delta))
  by_cases hc : |midpt (bisect f a b L w E I delta) - xr_old| /
      |midpt (bisect f a b L w E I delta)| * 100 < eps
  · rw [if_pos hc]
    exact bisection_loop_conv f L w E I delta a b eps xr_old Nmax n h
      (by rw [habs]; exact hc)
  · rw [if_neg hc]
    exact bisection_loop_next f L w E I delta a b eps xr_old Nmax n h
      (by rw [habs]; exact hc)

/-- Witness for C2 at `f = tfx` on `(0, 2)` with `xr_old = 1`, `eps = 200`,
`Nmax = 5`, `n = 0`. -/
theorem claim_C2_stopping_rule_witness :
    0 + 1 ≤ 5 ∧
    bisection_loop tfx 0 0 0 0 0 0 2 200 5 1 0 =
      (if |midpt (bisect tfx 0 2 0 0 0 0 0) - 1| /
          |midpt (bisect tfx 0 2 0 0 0 0 0)| * 100 < 200
      then (midpt (bisect tfx 0 2 0 0 0 0 0), 0 + 1)
      else bisection_loop tfx 0 0 0 0 0 (bisect tfx 0 2 0 0 0 0 0).1
        (bisect tfx 0 2 0 0 0 0 0).2 200 5
        (midpt (bisect tfx 0 2 0 0 0 0 0)) (0 + 1)) :=
  ⟨by norm_num, claim_C2_stopping_rule tfx 0 0 0 0 0 0 2 200 5 1 0 (by norm_num)⟩

/-- C7: when `Nmax ≥ 1` and `eps` exceeds the relative error produced by the
first iteration, `bisection_iterations` returns after exactly one iteration,
with iteration count `1` and the first new midpoint as the estimate. -/
theorem claim_C7_one_iteration (f : ℝ → ℝ → ℝ → ℝ → ℝ → ℝ → ℝ)
    (L w E I delta a b eps : ℝ) (Nmax : ℕ) (hN : 1 ≤ Nmax)
    (h : |midpt (bisect f a b L w E I delta) - (a + b) / 2| /
        |midpt (bisect f a b L w E I delta)| * 100 < eps) :
    bisection_iterations f L w E I delta a b eps Nmax =
      (midpt (bisect f a b L w E I delta), 1) := by
  rw [bisection_iterations]
  have habs := abs_div (midpt (bisect f a b L w E I delta) - (a + b) / 2)
    (midpt (bisect f a b L w E I delta))
  exact bisection_loop_conv f L w E I delta a b eps ((a + b) / 2) Nmax 0
    (by omega) (by rw [habs]; exact h)

/-- Witness for C7 at `f = tfx` on `(0, 2)` with `eps = 200`, `Nmax = 5`: the
first relative error is `100`, below `eps`, and the call returns
`(1/2, 1)`. -/
theorem claim_C7_one_iteration_witness :
    1 ≤ 5 ∧
    |midpt (bisect tfx 0 2 0 0 0 0 0) - ((0 : ℝ) + 2) / 2| /
        |midpt (bisect tfx 0 2 0 0 0 0 0)| * 100 < 200 ∧
    bisection_iterations tfx 0 0 0 0 0 0 2 200 5 =
      (midpt (bisect tfx 0 2 0 0 0 0 0), 1) := by
  have h : |midpt (bisect tfx 0 2 0 0 0 0 0) - ((0 : ℝ) + 2) / 2| /
      |midpt (bisect tfx 0 2 0 0 0 0 0)| * 100 < 200 := by
    rw [tfx_bisect_02]
    norm_num [midpt]
  exact ⟨by norm_num, h, claim_C7_one_iteration tfx 0 0 0 0 0 0 2 200 5 (by norm_num) h⟩

/-- C9: for `a ≤ b`, one `bisect` step produces an interval nested in its
input, and consequently the estimate returned by `bisection_iterations`
always lies within the original interval `[a, b]`, whatever `f`, `eps` and
the cap are. -/
theorem claim_C9_estimate_in_interval (f : ℝ → ℝ → ℝ → ℝ → ℝ → ℝ → ℝ)
    (L w E I delta a b eps : ℝ) (Nmax : ℕ) (h : a ≤ b) :
    (a ≤ (bisect f a b L w E I delta).1 ∧
     (bisect f a b L w E I delta).1 ≤ (bisect f a b L w E I delta).2 ∧
     (bisect f a b L w E I delta).2 ≤ b) ∧
    a ≤ (bisection_iterations f L w E I delta a b eps Nmax).1 ∧
    (bisection_iterations f L w E I delta a b eps Nmax).1 ≤ b := by
  refine ⟨bisect_nest f L w E I delta h, ?_⟩
  rw [bisection_iterations]
  exact bisection_loop_mem f L w E I delta eps Nmax Nmax 0 a b ((a + b) / 2)
    (by omega) h

/-- Witness for C9 at `f = tfx` on `(0, 2)` with `eps = 200`, `Nmax = 5`. -/
theorem claim_C9_estimate_in_interval_witness :
    ((0 : ℝ) ≤ 2) ∧
    ((0 ≤ (bisect tfx 0 2 0 0 0 0 0).1 ∧
      (bisect tfx 0 2 0 0 0 0 0).1 ≤ (bisect tfx 0 2 0 0 0 0 0).2 ∧
      (bisect tfx 0 2 0 0 0 0 0).2 ≤ 2) ∧
     0 ≤ (bisection_iterations tfx 0 0 0 0 0 0 2 200 5).1 ∧
     (bisection_iterations tfx 0 0 0 0 0 0 2 200 5).1 ≤ 2) :=
  ⟨by norm_num,
    claim_C9_estimate_in_interval tfx 0 0 0 0 0 0 2 200 5 (by norm_num)⟩

/-- C3: when the relative-error criterion fails on every one of the first
`Nmax` iterations, `bisection_iterations` still terminates: it performs the
`Nmax` bisections, breaks once the counter exceeds the cap, and returns the
current unconverged midpoint paired with the counter — a plain `ℝ × ℕ`
value of the same type as a converged result, with no error tag (the
source's only report is a printed message, a console side effect not
modelled here). -/
theorem claim_C3_cap_termination (f : ℝ → ℝ → ℝ → ℝ → ℝ → ℝ → ℝ)
    (L w E I delta a b eps : ℝ) (Nmax : ℕ)
    (h : ∀ j, j < Nmax →
      ¬ (|midpt (bisect_iter f L w E I delta (j + 1) (a, b)) -
            midpt (bisect_iter f L w E I delta j (a, b))| /
          |midpt (bisect_iter f L w E I delta (j + 1) (a, b))| * 100 < eps)) :
    bisection_iterations f L w E I delta a b eps Nmax =
      (midpt (bisect_iter f L w E I delta Nmax (a, b)), Nmax + 1) := by
  rw [bisection_iterations]
  have main := bisection_loop_noconv f L w E I delta eps Nmax Nmax 0 a b
    (by omega) (by omega) ?_
  · exact main
  · intro j hj
    have habs := abs_div
      (midpt (bisect_iter f L w E I delta (j + 1) (a, b)) -
        midpt (bisect_iter f L w E I delta j (a, b)))
      (midpt (bisect_iter f L w E I delta (j + 1) (a, b)))
    rw [habs]
    exact h j hj

/-- Witness for C3 at `f = tfx` on `(0, 2)` with `eps = 50`, `Nmax = 1`: the
only relative error is `100`, the criterion never fires, and the call returns
the unconverged `(1/2, 2)`. -/
theorem claim_C3_cap_termination_witness :
    (∀ j, j < 1 →
      ¬ (|midpt (bisect_iter tfx 0 0 0 0 0 (j + 1) ((0 : ℝ), 2)) -
            midpt (bisect_iter tfx 0 0 0 0 0 j ((0 : ℝ), 2))| /
          |midpt (bisect_iter tfx 0 0 0 0 0 (j + 1) ((0 : ℝ), 2))| * 100 < 50)) ∧
    bisection_iterations tfx 0 0 0 0 0 0 2 50 1 =
      (midpt (bisect_iter tfx 0 0 0 0 0 1 ((0 : ℝ), 2)), 1 + 1) := by
  have h : ∀ j, j < 1 →
      ¬ (|midpt (bisect_iter tfx 0 0 0 0 0 (j + 1) ((0 : ℝ), 2)) -
            midpt (bisect_iter tfx 0 0 0 0 0 j ((0 : ℝ), 2))| /
          |midpt (bisect_iter tfx 0 0 0 0 0 (j + 1) ((0 : ℝ), 2))| * 100 < 50) := by
    intro j hj
    have hj0 : j = 0 := by omega
    subst hj0
    rw [tfx_iter_1, bisect_iter_zero]
    norm_num [midpt]
  exact ⟨h, claim_C3_cap_termination tfx 0 0 0 0 0 0 2 50 1 h⟩

/-- C4 counterexample: with `f = tfx` on `(0, 2)`, `eps = 50`, `Nmax = 1`, the
loop performs exactly one bisection (reaching the interval
`bisect_iter 1 (0, 2) = (0, 1)`) and then exhausts the cap, yet the returned
counter is `2`, not the `1` bisection actually performed: the returned pair
is not `(midpoint of the final interval, iterations performed)`. -/
theorem claim_C4_count_cex :
    bisection_iterations tfx 0 0 0 0 0 0 2 50 1 =
      (midpt (bisect_iter tfx 0 0 0 0 0 1 ((0 : ℝ), 2)), 2) ∧
    bisection_iterations tfx 0 0 0 0 0 0 2 50 1 ≠
      (midpt (bisect_iter tfx 0 0 0 0 0 1 ((0 : ℝ), 2)), 1) := by
  have hnc : ¬ (|(midpt (bisect tfx 0 2 0 0 0 0 0) - (0 + 2) / 2) /
      midpt (bisect tfx 0 2 0 0 0 0 0)| * 100 < (50 : ℝ)) := by
    rw [tfx_bisect_02]
    norm_num [midpt]
  have hrun : bisection_iterations tfx 0 0 0 0 0 0 2 50 1 = (1 / 2, 2) := by
    rw [bisection_iterations,
      bisection_loop_next tfx 0 0 0 0 0 0 2 50 ((0 + 2) / 2) 1 0 (by norm_num) hnc,
      tfx_bisect_02]
    rw [bisection_loop_cap tfx 0 0 0 0 0 ((0 : ℝ), 1).1 ((0 : ℝ), 1).2 50
      (midpt ((0 : ℝ), 1)) 1 1 (by omega)]
    norm_num
  have hmid : midpt (bisect_iter tfx 0 0 0 0 0 1 ((0 : ℝ), 2)) = 1 / 2 := by
    rw [tfx_iter_1]
    norm_num [midpt]
  constructor
  · rw [hrun, hmid]
  · rw [hrun, hmid]
    simp

/-- C4 amended: whenever `bisection_iterations` returns, the first component
is the midpoint of the final working interval — reached from `(a, b)` by some
`k ≤ Nmax` bisection steps — and the second component equals `k` when the
loop stopped by convergence, but `Nmax + 1` (one more than the `k = Nmax`
bisections actually performed) when it stopped at the iteration cap. -/
theorem claim_C4_result_shape (f : ℝ → ℝ → ℝ → ℝ → ℝ → ℝ → ℝ)
    (L w E I delta a b eps : ℝ) (Nmax : ℕ) :
    ∃ k m, k ≤ Nmax ∧
      bisection_iterations f L w E I delta a b eps Nmax =
        (midpt (bisect_iter f L w E I delta k (a, b)), m) ∧
      (m = k ∨ (m = Nmax + 1 ∧ k = Nmax)) := by
  obtain ⟨k, m, hk, heq, hm⟩ := bisection_loop_shape f L w E I delta eps Nmax
    Nmax 0 a b ((a + b) / 2) (by omega) (by omega)
  refine ⟨k, m, by omega, ?_, by omega⟩
  rw [bisection_iterations]
  exact heq

/-- C8: `bisection_iterations` is total over well-formed input up to the one
possible runtime fault, a `ZeroDivisionError` in the relative-error
computation when some iteration's new midpoint is `0`: under the hypothesis
that no iteration of the run produces a zero midpoint, the fallible model
raises nothing and returns exactly the total model's result. -/
theorem claim_C8_no_fault (f : ℝ → ℝ → ℝ → ℝ → ℝ → ℝ → ℝ)
    (L w E I delta a b eps : ℝ) (Nmax : ℕ)
    (h : midZeroFree f L w E I delta a b eps Nmax ((a + b) / 2) 0) :
    bisection_iterationsE f L w E I delta a b eps Nmax =
      some (bisection_iterations f L w E I delta a b eps Nmax) := by
  rw [bisection_iterationsE, bisection_iterations]
  exact bisection_loopE_eq f L w E I delta eps Nmax Nmax 0 a b ((a + b) / 2)
    (by omega) h

/-- Witness for C8 at `f = tfx` on `(0, 2)` with `eps = 200`, `Nmax = 5`: the
single midpoint produced is `1/2 ≠ 0`, and the fallible run returns the total
result. -/
theorem claim_C8_no_fault_witness :
    midZeroFree tfx 0 0 0 0 0 0 2 200 5 (((0 : ℝ) + 2) / 2) 0 ∧
    bisection_iterationsE tfx 0 0 0 0 0 0 2 200 5 =
      some (bisection_iterations tfx 0 0 0 0 0 0 2 200 5) := by
  have h : midZeroFree tfx 0 0 0 0 0 0 2 200 5 (((0 : ℝ) + 2) / 2) 0 := by
    rw [midZeroFree, dif_neg (by omega)]
    rw [tfx_bisect_02]
    constructor
    · norm_num [midpt]
    · intro hc
      exact absurd (by norm_num [midpt]) hc
  exact ⟨h, claim_C8_no_fault tfx 0 0 0 0 0 0 2 200 5 h⟩

end BeamDeflection
